import Mathlib

/-!
Shallow embedding of the alphabet reinforcement-learning decision engine
(src/alphabet_rl.py) and proofs about its behaviour.

Conventions of the embedding:
- Python dicts become association lists (`List (String × _)`); lookup finds
  the first matching key, assignment replaces the first occurrence in place
  or appends a fresh pair at the end, mirroring dict insertion order.
- Python floats become exact rationals (`ℚ`).
- `random.random() < EPSILON` becomes an explicit Boolean parameter
  `explore`; `random.choice(ACTIONS)` becomes an explicit parameter
  `randAct` (quantified over in theorems).
- A raised exception (e.g. `list.index` raising `ValueError`) is `none`
  in an `Option` result; exception-free computation yields `some`.
- The `defaultdict(dict)` behaviour of the table (looking up a missing
  state key inserts an empty row) is modelled explicitly in `update_q`
  via `ensureRow`.
-/

abbrev MMap := List (String × Int)

abbrev Row := List (String × ℚ)

abbrev Table := List (String × Row)

/-- `LETTERS = list(string.ascii_uppercase)` — the 26-symbol alphabet. -/
def LETTERS : List String :=
  ["A", "B", "C", "D", "E", "F", "G", "H", "I", "J", "K", "L", "M",
   "N", "O", "P", "Q", "R", "S", "T", "U", "V", "W", "X", "Y", "Z"]

/-- The fixed closed set of 4 action tags. -/
def ACTIONS : List String :=
  ["practice_current", "move_next", "jump_trouble", "review_recent"]

/-- `ALPHA = 0.5` — learning rate. -/
def ALPHA : ℚ := 1 / 2

/-- `GAMMA = 0.9` — discount. -/
def GAMMA : ℚ := 9 / 10

/-- `MIN_RECENT_FOR_REVIEW = 2`. -/
def MIN_RECENT_FOR_REVIEW : Nat := 2

/-- `PREFER_MOVE_ON_AT_ML = 1`. -/
def PREFER_MOVE_ON_AT_ML : Int := 1

/-- Association-list lookup: first pair whose key matches (Python dict get). -/
def lookupA {α : Type _} : List (String × α) → String → Option α
  | [], _ => none
  | (k, v) :: rest, key => if k = key then some v else lookupA rest key

/-- Association-list assignment: replace the first occurrence in place, or
append at the end (Python dict item assignment, preserving insertion order). -/
def setA {α : Type _} : List (String × α) → String → α → List (String × α)
  | [], key, v => [(key, v)]
  | (k, w) :: rest, key, v =>
    if k = key then (key, v) :: rest else (k, w) :: setA rest key v

/-- `mastery_map.get(ltr, 0)`. -/
def mget (mm : MMap) (k : String) : Int := (lookupA mm k).getD 0

/-- `is_mastered(ltr, mastery_map) = mastery_map.get(ltr, 0) >= 2`. -/
def is_mastered (ltr : String) (mm : MMap) : Bool := decide (2 ≤ mget mm ltr)

/-- `state_key(letter, mastery_level) = f"{letter}:{mastery_level}"`. -/
def state_key (letter : String) (ml : Int) : String :=
  letter ++ ":" ++ toString ml

/-- Position scan used to model `list.index` (raises → `none`). -/
def idxFrom : List String → String → Nat → Option Nat
  | [], _, _ => none
  | x :: rest, l, i => if x = l then some i else idxFrom rest l (i + 1)

/-- `LETTERS.index(l)`, `none` when the symbol is outside the alphabet. -/
def indexOfL (l : String) : Option Nat := idxFrom LETTERS l 0

/-- `LETTERS[j]` with an (unreachable) default, the total indexer used by
the circular scans. -/
def letterAt (j : Nat) : String := LETTERS.getD j ""

/-- The forward scan of `next_letter`: for `step = start, start+1, ...`
(at most `r` steps) try `LETTERS[(idx + step) % 26]` and return the first
candidate with mastery below 2. -/
def scanSteps (idx : Nat) (mm : MMap) (start : Nat) : Nat → Option String
  | 0 => none
  | r + 1 =>
    let cand := letterAt ((idx + start) % 26)
    if mget mm cand < 2 then some cand else scanSteps idx mm (start + 1) r

/-- `next_letter(letter, mastery_map)`: scan forward circularly (distance
1..26) for the first symbol with mastery level < 2 when the map is
non-empty; fall back to the immediate circular successor. `none` models the
`ValueError` of `LETTERS.index` on an unknown symbol. -/
def next_letter (letter : String) (mm : MMap) : Option String :=
  match indexOfL letter with
  | none => none
  | some idx =>
    let scanned := if mm.isEmpty then none else scanSteps idx mm 1 26
    some (scanned.getD (letterAt ((idx + 1) % 26)))

/-- The candidate list of `pick_trouble_letter`: map keys with level 0, or
(if that list is empty) map keys with level 1 (Python `list0 or list1`). -/
def troubleCandidates (mm : MMap) : List String :=
  let zs := (mm.filter (fun p => p.2 == 0)).map Prod.fst
  if zs.isEmpty then (mm.filter (fun p => p.2 == 1)).map Prod.fst else zs

/-- `abs(LETTERS.index(l) - cidx)`, `none` when `l` is outside the alphabet. -/
def distTo (cidx : Nat) (l : String) : Option Nat :=
  (indexOfL l).map (fun j => ((j : Int) - (cidx : Int)).natAbs)

/-- Python `min(candidates, key=...)` over the remaining candidates, keeping
the first element attaining the minimum; `none` models a raised
`ValueError` from an out-of-alphabet candidate. -/
def minGo (cidx : Nat) : List String → String → Nat → Option String
  | [], best, _ => some best
  | l :: rest, best, bd =>
    match distTo cidx l with
    | none => none
    | some d => if d < bd then minGo cidx rest l d else minGo cidx rest best bd

/-- `pick_trouble_letter(mastery_map, current_letter)`. Result `some none`
is Python `None` (no trouble letter); `some (some t)` is a trouble letter;
`none` is a raised exception. -/
def pick_trouble_letter (mm : MMap) (current : String) : Option (Option String) :=
  match troubleCandidates mm with
  | [] => some none
  | c :: rest =>
    match indexOfL current with
    | none => none
    | some cidx =>
      match distTo cidx c with
      | none => none
      | some d0 =>
        match minGo cidx rest c d0 with
        | none => none
        | some t => some (some t)

/-- `pick_trouble_letter(mastery_map, letter) if mastery_map else None`,
the guarded call appearing in both `heuristic_policy` and `api_next`. -/
def troubleOf (mm : MMap) (letter : String) : Option (Option String) :=
  if mm.isEmpty then some none else pick_trouble_letter mm letter

/-- Python truthiness test `t and t != letter` for `t : Option String`. -/
def truthyNe (t : Option String) (letter : String) : Bool :=
  match t with
  | none => false
  | some s => !(s == "") && !(s == letter)

/-- Number of distinct recent symbols that are not currently mastered
(`len([r for r in set(recent) if not is_mastered(r, mastery_map)])`). -/
def recentUnmasteredCount (recent : List String) (mm : MMap) : Nat :=
  (recent.dedup.filter (fun r => !is_mastered r mm)).length

/-- `heuristic_policy(letter, ml, mastery_map, recent)`; `none` is a raised
exception propagated from `pick_trouble_letter`. -/
def heuristic_policy (letter : String) (ml : Int) (mm : MMap)
    (recent : List String) : Option String :=
  if 2 ≤ ml then some "move_next"
  else if PREFER_MOVE_ON_AT_ML ≤ ml then some "move_next"
  else
    match troubleOf mm letter with
    | none => none
    | some t =>
      if truthyNe t letter then some "jump_trouble"
      else if !recent.isEmpty &&
          decide (MIN_RECENT_FOR_REVIEW ≤ recentUnmasteredCount recent mm) then
        some "review_recent"
      else some "practice_current"

/-- Python `max(row.items(), key=lambda kv: kv[1])`: fold keeping the first
pair attaining the maximal value. -/
def maxPair : List (String × ℚ) → (String × ℚ) → (String × ℚ)
  | [], best => best
  | kv :: rest, best => maxPair rest (if best.2 < kv.2 then kv else best)

/-- `argmax_action(skey)`: `none` when the state has no (or an empty) row —
the membership guard `skey not in Q or not Q[skey]` never inserts into the
defaultdict. -/
def argmax_action (Q : Table) (skey : String) : Option String :=
  match lookupA Q skey with
  | none => none
  | some [] => none
  | some (kv :: rest) => some (maxPair rest kv).1

/-- `epsilon_greedy(skey, letter, ml, mastery_map, recent)` with the random
draws made explicit: `explore` is `random.random() < EPSILON`, `randAct` is
`random.choice(ACTIONS)`. -/
def epsilon_greedy (Q : Table) (skey letter : String) (ml : Int) (mm : MMap)
    (recent : List String) (explore : Bool) (randAct : String) : Option String :=
  match argmax_action Q skey with
  | none =>
    match heuristic_policy letter ml mm recent with
    | none => none
    | some base => some (if explore then randAct else base)
  | some best => some (if explore then randAct else best)

/-- The `review_recent` collection loop of `api_next`: walk `reversed(recent)`
appending unseen, unmastered symbols, stopping at 3. -/
def collectRecent (mm : MMap) : List String → List String → List String
  | [], seen => seen
  | l :: rest, seen =>
    let seen2 := if !seen.contains l && !is_mastered l mm then seen ++ [l] else seen
    if seen2.length == 3 then seen2 else collectRecent mm rest seen2

/-- Python `t or letter` on an optional string (`None` and `""` are falsy). -/
def pyOr (t : Option String) (letter : String) : String :=
  match t with
  | none => letter
  | some s => if s = "" then letter else s

/-- The action dispatch of `api_next` building the target payload: returns
(final action, target letter, target list); the `review_recent` branch may
degrade the action to `move_next`. `none` is a raised exception. -/
def resolve_target (letter : String) (mm : MMap) (recent : List String)
    (action : String) : Option (String × String × List String) :=
  if action = "practice_current" then some (action, letter, [])
  else if action = "move_next" then
    (next_letter letter mm).map (fun t => (action, t, []))
  else if action = "jump_trouble" then
    (troubleOf mm letter).map (fun t => (action, pyOr t letter, []))
  else if action = "review_recent" then
    let seen := collectRecent mm recent.reverse []
    if seen.isEmpty then
      (next_letter letter mm).map (fun t => ("move_next", t, []))
    else some (action, seen.headD "", seen)
  else some (action, letter, [])

/-- The post-processing of `api_next`: replace a mastered target letter by
`next_letter(letter, mastery_map)` and filter mastered symbols out of a
non-empty review list. -/
def post_process (letter : String) (mm : MMap) (t0 : String)
    (lst0 : List String) : Option (String × List String) :=
  match (if is_mastered t0 mm then next_letter letter mm else some t0) with
  | none => none
  | some t1 =>
    some (t1, if lst0.isEmpty then lst0 else lst0.filter (fun l => !is_mastered l mm))

/-- The mastered-skip pre-processing of `api_next`: if the caller's current
letter is mastered, substitute `next_letter` and re-read its level. -/
def preStep (mm : MMap) (letter0 : String) (ml0 : Int) : Option (String × Int) :=
  if 2 ≤ mget mm letter0 then
    (next_letter letter0 mm).map (fun l => (l, mget mm l))
  else some (letter0, ml0)

/-- The decision payload of `api_next`. -/
structure DecideOut where
  action : String
  targetLetter : String
  targetList : List String
  skey : String
deriving DecidableEq

/-- The decision logic of the `api_next` handler on an in-memory table. -/
def api_next_core (Q : Table) (letter0 : String) (ml0 : Int) (mm : MMap)
    (recent : List String) (explore : Bool) (randAct : String) : Option DecideOut :=
  (preStep mm letter0 ml0).bind (fun p =>
    let letter := p.1
    let ml := p.2
    let skey := state_key letter ml
    (epsilon_greedy Q skey letter ml mm recent explore randAct).bind (fun action =>
      (resolve_target letter mm recent action).bind (fun r =>
        (post_process letter mm r.2.1 r.2.2).map (fun q =>
          ⟨r.1, q.1, q.2, skey⟩))))

/-- Process state: the in-memory table `Q` and the persisted store
(`none` = the backing file does not exist yet). -/
structure Sys where
  q : Table
  store : Option Table
deriving DecidableEq

/-- `load_q()`: replace the in-memory table with the store's content when
the backing file exists. -/
def load_q (s : Sys) : Sys := { s with q := s.store.getD s.q }

/-- `save_q()`: overwrite the store with the in-memory table. -/
def save_q (s : Sys) : Sys := { s with store := some s.q }

/-- The `api_next` handler: load the table, decide, mutate nothing. -/
def api_next (sys : Sys) (letter0 : String) (ml0 : Int) (mm : MMap)
    (recent : List String) (explore : Bool) (randAct : String) :
    Option DecideOut × Sys :=
  let sys1 := load_q sys
  (api_next_core sys1.q letter0 ml0 mm recent explore randAct, sys1)

/-- Ensure a row exists for `k`, modelling the `defaultdict(dict)` access
`Q[k]` which inserts an empty row at the end when `k` is missing. -/
def ensureRow (Q : Table) (k : String) : Table :=
  if (lookupA Q k).isSome then Q else Q ++ [(k, [])]

/-- The row of `Q` at `k`, empty when absent. -/
def rowOf (Q : Table) (k : String) : Row := (lookupA Q k).getD []

/-- `max(row.values(), default=0.0)`. -/
def rowMax : Row → ℚ
  | [] => 0
  | kv :: rest => rest.foldl (fun m p => max m p.2) kv.2

/-- Cell lookup, as an option. -/
def cellOpt (Q : Table) (k b : String) : Option ℚ := lookupA (rowOf Q k) b

/-- Cell lookup with the absent-means-zero convention. -/
def cellGet (Q : Table) (k b : String) : ℚ := (cellOpt Q k b).getD 0

/-- `update_q(skey, action, reward, next_skey)` on the in-memory table: the
two `defaultdict` accesses `Q[skey]` (line reading `old_q`) and
`Q[next_skey]` (reading `next_max`) each insert an empty row when the key
is missing, then the new value is stored at `Q[skey][action]`. -/
def update_q (Q : Table) (skey action : String) (reward : ℚ)
    (next_skey : String) : Table :=
  let Q0 := ensureRow Q skey
  let old_q := (lookupA (rowOf Q0 skey) action).getD 0
  let Q1 := ensureRow Q0 next_skey
  let next_max := rowMax (rowOf Q1 next_skey)
  let new_q := old_q + ALPHA * (reward + GAMMA * next_max - old_q)
  setA Q1 skey (setA (rowOf Q1 skey) action new_q)

/-- A feedback request: state key, action, reward and next state. -/
structure FbOp where
  skey : String
  action : String
  reward : ℚ
  nletter : String
  nml : Int

/-- The `api_feedback` handler: load the table, apply the update rule at
`state_key(next_state)`, persist the full table (`update_q` calls
`save_q`). -/
def api_feedback (sys : Sys) (op : FbOp) : Sys :=
  let sys1 := load_q sys
  let q2 := update_q sys1.q op.skey op.action op.reward (state_key op.nletter op.nml)
  save_q { sys1 with q := q2 }

/-- A sequence of feedback calls. -/
def runFeedbacks (sys : Sys) (ops : List FbOp) : Sys :=
  ops.foldl api_feedback sys

/-- The alphabetic position of a symbol (0 when outside the alphabet). -/
def letterIdx (l : String) : Nat := (indexOfL l).getD 0

/-- `distance(a, b)`: absolute difference of alphabetic positions. -/
def pdist (current l : String) : Nat :=
  ((letterIdx l : Int) - (letterIdx current : Int)).natAbs

/-- Whether every action key of every row of a table belongs to `ACTIONS`. -/
def actionKeysOK (Q : Table) : Bool :=
  Q.all (fun p => p.2.all (fun c => decide (c.1 ∈ ACTIONS)))

/-- A mastery map marking all 26 symbols as mastered. -/
def allMastered : MMap := LETTERS.map (fun l => (l, 2))

/-- Decidability of a property of the payload of a concrete `Option`. -/
instance optionElimDecidable {α : Type _} (P : α → Prop) [DecidablePred P] :
    (x : Option α) → Decidable (x.elim True P)
  | none => isTrue trivial
  | some a => inferInstanceAs (Decidable (P a))

/-! # Theorems -/

section SanityChecks

example : next_letter "Z" [("Z", 2)] = some "A" := by decide

example : pick_trouble_letter [("A", 0), ("B", 0)] "C" = some (some "B") := by decide

example : api_next_core [] "C" 0 [("A", 0), ("B", 0)] [] false "move_next" =
    some ⟨"jump_trouble", "B", [], "C:0"⟩ := by decide

example : state_key "A" 0 = "A:0" := by decide

end SanityChecks

/-! ## Association-list lemmas -/

theorem lookupA_setA_self {α : Type _} (xs : List (String × α)) (k : String) (v : α) :
    lookupA (setA xs k v) k = some v := by
  induction xs with
  | nil => simp [setA, lookupA]
  | cons p rest ih =>
    obtain ⟨a, b⟩ := p
    by_cases h : a = k
    · simp [setA, h, lookupA]
    · simp [setA, h, lookupA, ih]

theorem lookupA_setA_ne {α : Type _} (xs : List (String × α)) (k k' : String) (v : α)
    (h : k' ≠ k) : lookupA (setA xs k v) k' = lookupA xs k' := by
  induction xs with
  | nil => simp [setA, lookupA, Ne.symm h]
  | cons p rest ih =>
    obtain ⟨a, b⟩ := p
    by_cases ha : a = k
    · subst ha
      simp [setA, lookupA, Ne.symm h]
    · simp [setA, ha, lookupA, ih]

theorem lookupA_append_none {α : Type _} (xs ys : List (String × α)) (k : String)
    (h : lookupA xs k = none) : lookupA (xs ++ ys) k = lookupA ys k := by
  induction xs with
  | nil => simp
  | cons p rest ih =>
    obtain ⟨a, b⟩ := p
    by_cases ha : a = k
    · simp [lookupA, ha] at h
    · simp [lookupA, ha] at h ⊢
      exact ih h

theorem lookupA_append_some {α : Type _} (xs ys : List (String × α)) (k : String)
    (v : α) (h : lookupA xs k = some v) : lookupA (xs ++ ys) k = some v := by
  induction xs with
  | nil => simp [lookupA] at h
  | cons p rest ih =>
    obtain ⟨a, b⟩ := p
    by_cases ha : a = k
    · simp [lookupA, ha] at h ⊢
      exact h
    · simp [lookupA, ha] at h ⊢
      exact ih h

theorem lookupA_ensureRow_self (Q : Table) (k : String) :
    lookupA (ensureRow Q k) k = some (rowOf Q k) := by
  unfold ensureRow rowOf
  cases h : lookupA Q k with
  | none =>
    simp [h]
    rw [lookupA_append_none _ _ _ h]
    simp [lookupA]
  | some r => simp [h]

theorem lookupA_ensureRow_ne (Q : Table) (k k' : String) (h : k' ≠ k) :
    lookupA (ensureRow Q k) k' = lookupA Q k' := by
  unfold ensureRow
  cases hq : lookupA Q k with
  | none =>
    simp [hq]
    cases hq' : lookupA Q k' with
    | none => rw [lookupA_append_none _ _ _ hq', lookupA, if_neg (Ne.symm h), lookupA]
    | some r => exact lookupA_append_some _ _ _ _ hq'
  | some r => simp [hq]

theorem rowOf_ensureRow (Q : Table) (k k' : String) :
    rowOf (ensureRow Q k) k' = rowOf Q k' := by
  by_cases h : k' = k
  · subst h
    rw [rowOf, lookupA_ensureRow_self]
    rfl
  · rw [rowOf, lookupA_ensureRow_ne _ _ _ h, rowOf]

theorem rowOf_setA_self (Q : Table) (k : String) (r : Row) :
    rowOf (setA Q k r) k = r := by
  rw [rowOf, lookupA_setA_self]
  rfl

theorem rowOf_setA_ne (Q : Table) (k k' : String) (r : Row) (h : k' ≠ k) :
    rowOf (setA Q k r) k' = rowOf Q k' := by
  rw [rowOf, lookupA_setA_ne _ _ _ _ h, rowOf]

theorem mem_setA {α : Type _} (xs : List (String × α)) (k : String) (v : α)
    (p : String × α) (h : p ∈ setA xs k v) : p ∈ xs ∨ p = (k, v) := by
  induction xs with
  | nil => simpa [setA] using h
  | cons q rest ih =>
    obtain ⟨a, b⟩ := q
    by_cases ha : a = k
    · simp [setA, ha] at h
      rcases h with h | h
      · exact Or.inr h
      · exact Or.inl (List.mem_cons_of_mem _ h)
    · simp [setA, ha] at h
      rcases h with h | h
      · exact Or.inl (by simp [h])
      · rcases ih h with h' | h'
        · exact Or.inl (List.mem_cons_of_mem _ h')
        · exact Or.inr h'

theorem mem_ensureRow (Q : Table) (k : String) (p : String × Row)
    (h : p ∈ ensureRow Q k) : p ∈ Q ∨ p = (k, []) := by
  unfold ensureRow at h
  by_cases hq : (lookupA Q k).isSome
  · rw [if_pos hq] at h
    exact Or.inl h
  · rw [if_neg hq] at h
    rcases List.mem_append.mp h with h' | h'
    · exact Or.inl h'
    · exact Or.inr (by simpa using h')

theorem lookupA_mem {α : Type _} (xs : List (String × α)) (k : String) (v : α)
    (h : lookupA xs k = some v) : (k, v) ∈ xs := by
  induction xs with
  | nil => simp [lookupA] at h
  | cons q rest ih =>
    obtain ⟨a, b⟩ := q
    by_cases ha : a = k
    · simp [lookupA, ha] at h
      simp [ha, h]
    · simp [lookupA, ha] at h
      exact List.mem_cons_of_mem _ (ih h)

theorem lookupA_setA_isSome {α : Type _} (xs : List (String × α)) (k k' : String)
    (v : α) (h : (lookupA xs k').isSome) : (lookupA (setA xs k v) k').isSome := by
  by_cases hk : k' = k
  · subst hk
    rw [lookupA_setA_self]
    rfl
  · rw [lookupA_setA_ne _ _ _ _ hk]
    exact h

theorem lookupA_ensureRow_isSome (Q : Table) (k k' : String)
    (h : (lookupA Q k').isSome) : (lookupA (ensureRow Q k) k').isSome := by
  by_cases hk : k' = k
  · subst hk
    rw [lookupA_ensureRow_self]
    rfl
  · rw [lookupA_ensureRow_ne _ _ _ hk]
    exact h

/-! ## C2: the temporal-difference update formula -/

/-- C2: after `update_q(s, a, r, s')` the value stored at `table[s][a]` is
`old + α·(r + γ·nextMax − old)` where `old` is the prior value at
`table[s][a]` (0 when absent) and `nextMax` is the maximum over
`table[s']`'s values (0 when the row is absent or empty); in particular
old=0, nextMax=0, r=1 gives 1/2 and old=1/2, nextMax=1, r=−1 gives 1/5. -/
theorem update_q_formula :
    (∀ (Q : Table) (s a : String) (r : ℚ) (s2 : String),
      cellOpt (update_q Q s a r s2) s a =
        some (cellGet Q s a + ALPHA * (r + GAMMA * rowMax (rowOf Q s2) - cellGet Q s a))) ∧
    cellOpt (update_q [] "C:0" "practice_current" 1 "C:1") "C:0" "practice_current" =
      some (1 / 2) ∧
    cellOpt (update_q [("C:0", [("practice_current", 1 / 2)]), ("C:1", [("move_next", 1)])]
        "C:0" "practice_current" (-1) "C:1") "C:0" "practice_current" = some (1 / 5) := by
  refine ⟨?_, ?_, ?_⟩
  · intro Q s a r s2
    unfold update_q cellOpt cellGet
    rw [rowOf_setA_self, lookupA_setA_self, rowOf_ensureRow, rowOf_ensureRow,
      rowOf_ensureRow, cellOpt]
  · simp [update_q, cellOpt, rowOf, ensureRow, lookupA, setA, rowMax, ALPHA, GAMMA]
  · simp [update_q, cellOpt, rowOf, ensureRow, lookupA, setA, rowMax, ALPHA, GAMMA]
    norm_num

/-! ## C7: frame properties of the update -/

/-- C7 counterexample: updating `table["C:0"]["practice_current"]` with next
state key `"C:1"` on the empty table creates a row for `"C:1"` as well (the
`defaultdict` lookup of `Q[next_skey]` inserts an empty row), so the claim
that no row is created for any other state key fails. -/
theorem update_q_creates_next_row :
    lookupA (update_q [] "C:0" "practice_current" 1 "C:1") "C:1" = some [] ∧
    lookupA ([] : Table) "C:1" = none := by decide

/-- C7 amended: the update changes the effective value only of the cell
`(s, a)`: every other `(state, action)` cell looks up the same optional
value as before; rows of state keys other than `s` and `s'` are untouched;
the only row possibly created besides `s`'s is an empty row at `s'`; and no
row is ever removed. -/
theorem update_q_frame (Q : Table) (s a : String) (r : ℚ) (s2 : String) :
    (∀ k b, k ≠ s ∨ b ≠ a → cellOpt (update_q Q s a r s2) k b = cellOpt Q k b) ∧
    (∀ k, k ≠ s → k ≠ s2 → lookupA (update_q Q s a r s2) k = lookupA Q k) ∧
    (s2 ≠ s → lookupA (update_q Q s a r s2) s2 = some (rowOf Q s2)) ∧
    (∀ k, (lookupA Q k).isSome → (lookupA (update_q Q s a r s2) k).isSome) := by
  refine ⟨?_, ?_, ?_, ?_⟩
  · intro k b hkb
    by_cases hk : k = s
    · subst hk
      rcases hkb with h | h
      · exact absurd rfl h
      · unfold update_q cellOpt
        rw [rowOf_setA_self, lookupA_setA_ne _ _ _ _ h, rowOf_ensureRow,
          rowOf_ensureRow]
    · unfold update_q cellOpt
      rw [rowOf_setA_ne _ _ _ _ hk, rowOf_ensureRow, rowOf_ensureRow]
  · intro k hk1 hk2
    unfold update_q
    rw [lookupA_setA_ne _ _ _ _ hk1, lookupA_ensureRow_ne _ _ _ hk2,
      lookupA_ensureRow_ne _ _ _ hk1]
  · intro hne
    unfold update_q
    rw [lookupA_setA_ne _ _ _ _ hne, lookupA_ensureRow_self, rowOf_ensureRow]
  · intro k hk
    unfold update_q
    exact lookupA_setA_isSome _ _ _ _
      (lookupA_ensureRow_isSome _ _ _ (lookupA_ensureRow_isSome _ _ _ hk))

/-- Witness for the amended C7 frame theorem at a concrete input. -/
theorem update_q_frame_witness :
    cellOpt (update_q [] "C:0" "practice_current" 1 "C:1") "C:1" "move_next" =
      cellOpt ([] : Table) "C:1" "move_next" :=
  (update_q_frame [] "C:0" "practice_current" 1 "C:1").1 "C:1" "move_next"
    (Or.inl (by decide))

/-! ## Lemmas about the circular scan of `next_letter` -/

theorem letters_getD_mem : ∀ j, j < 26 → letterAt j ∈ LETTERS := by decide

theorem letters_index_data : ∀ l ∈ LETTERS, (indexOfL l).isSome ∧
    (indexOfL l).getD 0 < 26 ∧ letterAt ((indexOfL l).getD 0) = l := by decide

theorem letters_ne_empty_str : ∀ l ∈ LETTERS, l ≠ "" := by decide

theorem scanSteps_none_all (idx : Nat) (mm : MMap) :
    ∀ r start, scanSteps idx mm start r = none →
      ∀ d, start ≤ d → d < start + r →
        2 ≤ mget mm (letterAt ((idx + d) % 26)) := by
  intro r
  induction r with
  | zero => intro start _ d h1 h2; omega
  | succ n ih =>
    intro start h d h1 h2
    simp only [scanSteps] at h
    by_cases hc : mget mm (letterAt ((idx + start) % 26)) < 2
    · simp [hc] at h
    · rcases Nat.eq_or_lt_of_le h1 with rfl | hlt
      · omega
      · exact ih (start + 1) (by simpa [hc] using h) d hlt (by omega)

theorem scanSteps_some_first (idx : Nat) (mm : MMap) :
    ∀ r start c, scanSteps idx mm start r = some c →
      ∃ d, start ≤ d ∧ d < start + r ∧ c = letterAt ((idx + d) % 26) ∧
        mget mm c < 2 ∧
        ∀ e, start ≤ e → e < d → 2 ≤ mget mm (letterAt ((idx + e) % 26)) := by
  intro r
  induction r with
  | zero => intro start c h; simp [scanSteps] at h
  | succ n ih =>
    intro start c h
    simp only [scanSteps] at h
    by_cases hc : mget mm (letterAt ((idx + start) % 26)) < 2
    · simp only [hc, if_true, Option.some.injEq] at h
      subst h
      exact ⟨start, le_refl _, by omega, rfl, hc, fun e he1 he2 => by omega⟩
    · obtain ⟨d, hd1, hd2, hd3, hd4, hd5⟩ := ih (start + 1) c (by simpa [hc] using h)
      refine ⟨d, by omega, by omega, hd3, hd4, fun e he1 he2 => ?_⟩
      rcases Nat.eq_or_lt_of_le he1 with rfl | hlt
      · omega
      · exact hd5 e hlt he2

theorem scanSteps_all_mastered (idx : Nat) (mm : MMap)
    (hall : ∀ l ∈ LETTERS, 2 ≤ mget mm l) :
    ∀ r start, scanSteps idx mm start r = none := by
  intro r
  induction r with
  | zero => intro start; rfl
  | succ n ih =>
    intro start
    have hmem := letters_getD_mem ((idx + start) % 26) (Nat.mod_lt _ (by norm_num))
    have h2 := hall _ hmem
    simp only [scanSteps]
    rw [if_neg (by omega)]
    exact ih (start + 1)

theorem step_surj (idx j : Nat) (hj : j < 26) :
    ∃ d, 1 ≤ d ∧ d ≤ 26 ∧ (idx + d) % 26 = j := by
  by_cases h : idx % 26 < j
  · exact ⟨j - idx % 26, by omega, by omega, by omega⟩
  · exact ⟨26 - idx % 26 + j, by omega, by omega, by omega⟩

theorem next_letter_unmastered (letter : String) (mm : MMap) (c : String)
    (hex : ∃ l ∈ LETTERS, mget mm l < 2) (h : next_letter letter mm = some c) :
    mget mm c < 2 ∧ c ∈ LETTERS := by
  unfold next_letter at h
  cases hidx : indexOfL letter with
  | none => rw [hidx] at h; exact absurd h (by simp)
  | some idx =>
    rw [hidx] at h
    by_cases hmm : mm.isEmpty
    · have hnil : mm = [] := List.isEmpty_iff.mp hmm
      subst hnil
      simp only [hmm, if_true, Option.getD_none, Option.some.injEq] at h
      subst h
      refine ⟨by simp [mget, lookupA], ?_⟩
      exact letters_getD_mem _ (Nat.mod_lt _ (by norm_num))
    · simp only [hmm, if_false, Bool.false_eq_true] at h
      cases hs : scanSteps idx mm 1 26 with
      | some c2 =>
        rw [hs] at h
        simp only [Option.getD_some, Option.some.injEq] at h
        subst h
        obtain ⟨d, _, _, hc3, hc4, _⟩ := scanSteps_some_first idx mm 26 1 c2 hs
        exact ⟨hc4, hc3 ▸ letters_getD_mem _ (Nat.mod_lt _ (by norm_num))⟩
      | none =>
        exfalso
        obtain ⟨l, hl, hl2⟩ := hex
        obtain ⟨_, hlt, hgd⟩ := letters_index_data l hl
        obtain ⟨d, hd1, hd2, hd3⟩ := step_surj idx ((indexOfL l).getD 0) hlt
        have hmast := scanSteps_none_all idx mm 26 1 hs d hd1 (by omega)
        rw [hd3, hgd] at hmast
        omega

/-! ## C3: specification of `next_letter` -/

/-- C3: `next_letter(s, m)` returns the first symbol at forward circular
distance 1..26 from `s` whose mastery level in `m` is below 2 (so it never
returns a mastered symbol when an unmastered one exists); when all 26
symbols are mastered it returns the immediate circular successor of `s`. -/
theorem next_letter_spec (letter : String) (mm : MMap) (idx : Nat)
    (hidx : indexOfL letter = some idx) :
    ((∃ l ∈ LETTERS, mget mm l < 2) →
      ∃ c d, next_letter letter mm = some c ∧ 1 ≤ d ∧ d ≤ 26 ∧
        c = letterAt ((idx + d) % 26) ∧ mget mm c < 2 ∧
        ∀ e, 1 ≤ e → e < d → 2 ≤ mget mm (letterAt ((idx + e) % 26))) ∧
    ((∀ l ∈ LETTERS, 2 ≤ mget mm l) →
      next_letter letter mm = some (letterAt ((idx + 1) % 26))) := by
  constructor
  · intro hex
    by_cases hmm : mm.isEmpty
    · have hnil : mm = [] := List.isEmpty_iff.mp hmm
      subst hnil
      refine ⟨letterAt ((idx + 1) % 26), 1, ?_, le_refl _, by omega, rfl,
        by simp [mget, lookupA], fun e he1 he2 => by omega⟩
      unfold next_letter
      rw [hidx]
      simp [hmm]
    · cases hs : scanSteps idx mm 1 26 with
      | some c2 =>
        obtain ⟨d, hd1, hd2, hd3, hd4, hd5⟩ := scanSteps_some_first idx mm 26 1 c2 hs
        refine ⟨c2, d, ?_, hd1, by omega, hd3, hd4, fun e he1 he2 => hd5 e he1 he2⟩
        unfold next_letter
        rw [hidx]
        simp [hmm, hs]
      | none =>
        exfalso
        obtain ⟨l, hl, hl2⟩ := hex
        obtain ⟨_, hlt, hgd⟩ := letters_index_data l hl
        obtain ⟨d, hd1, hd2, hd3⟩ := step_surj idx ((indexOfL l).getD 0) hlt
        have hmast := scanSteps_none_all idx mm 26 1 hs d hd1 (by omega)
        rw [hd3, hgd] at hmast
        omega
  · intro hall
    unfold next_letter
    rw [hidx]
    by_cases hmm : mm.isEmpty
    · simp [hmm]
    · simp [hmm, scanSteps_all_mastered idx mm hall 26 1]

/-- Witness for C3: on a map marking every symbol mastered, `next_letter`
from `"Z"` returns the immediate circular successor `LETTERS[0] = "A"`. -/
theorem next_letter_spec_witness :
    next_letter "Z" allMastered = some (letterAt ((25 + 1) % 26)) :=
  (next_letter_spec "Z" allMastered 25 (by decide)).2 (by decide)

/-! ## Lemmas about `pick_trouble_letter` -/

theorem distTo_of_mem (cidx : Nat) (l : String) (hl : l ∈ LETTERS) :
    distTo cidx l = some (((letterIdx l : Int) - (cidx : Int)).natAbs) := by
  obtain ⟨hsome, -, -⟩ := letters_index_data l hl
  cases hi : indexOfL l with
  | none => rw [hi] at hsome; exact absurd hsome (by simp)
  | some j => simp [distTo, hi, letterIdx]

theorem minGo_spec (cidx : Nat) :
    ∀ (cs : List String) (best : String) (bd : Nat),
      (∀ l ∈ cs, l ∈ LETTERS) → bd = ((letterIdx best : Int) - (cidx : Int)).natAbs →
      ∃ t, minGo cidx cs best bd = some t ∧ (t = best ∨ t ∈ cs) ∧
        ((letterIdx t : Int) - (cidx : Int)).natAbs ≤ bd ∧
        ∀ l ∈ cs, ((letterIdx t : Int) - (cidx : Int)).natAbs ≤
          ((letterIdx l : Int) - (cidx : Int)).natAbs := by
  intro cs
  induction cs with
  | nil =>
    intro best bd _ hbd
    exact ⟨best, rfl, Or.inl rfl, le_of_eq hbd.symm, by simp⟩
  | cons l rest ih =>
    intro best bd hcs hbd
    have hl : l ∈ LETTERS := hcs l (List.mem_cons_self _ _)
    have hrest : ∀ x ∈ rest, x ∈ LETTERS := fun x hx => hcs x (List.mem_cons_of_mem _ hx)
    by_cases hcmp : ((letterIdx l : Int) - (cidx : Int)).natAbs < bd
    · obtain ⟨t, ht1, ht2, ht3, ht4⟩ := ih l _ hrest rfl
      refine ⟨t, ?_, ?_, ?_, ?_⟩
      · simp only [minGo, distTo_of_mem cidx l hl]
        rw [if_pos hcmp]
        exact ht1
      · rcases ht2 with h | h
        · exact Or.inr (h ▸ List.mem_cons_self _ _)
        · exact Or.inr (List.mem_cons_of_mem _ h)
      · exact le_of_lt (lt_of_le_of_lt ht3 hcmp)
      · intro x hx
        rcases List.mem_cons.mp hx with rfl | hx'
        · exact ht3
        · exact ht4 x hx'
    · obtain ⟨t, ht1, ht2, ht3, ht4⟩ := ih best bd hrest hbd
      refine ⟨t, ?_, ?_, ht3, ?_⟩
      · simp only [minGo, distTo_of_mem cidx l hl]
        rw [if_neg hcmp]
        exact ht1
      · rcases ht2 with h | h
        · exact Or.inl h
        · exact Or.inr (List.mem_cons_of_mem _ h)
      · intro x hx
        rcases List.mem_cons.mp hx with rfl | hx'
        · exact le_trans ht3 (not_lt.mp hcmp)
        · exact ht4 x hx'

theorem troubleCandidates_sub (mm : MMap) :
    ∀ l ∈ troubleCandidates mm, ∃ p ∈ mm, p.1 = l := by
  intro l hl
  unfold troubleCandidates at hl
  by_cases hz : ((mm.filter (fun p => p.2 == 0)).map Prod.fst).isEmpty
  · rw [if_pos hz] at hl
    obtain ⟨p, hp, hpl⟩ := List.mem_map.mp hl
    exact ⟨p, (List.mem_filter.mp hp).1, hpl⟩
  · rw [if_neg hz] at hl
    obtain ⟨p, hp, hpl⟩ := List.mem_map.mp hl
    exact ⟨p, (List.mem_filter.mp hp).1, hpl⟩

theorem troubleCandidates_mem_iff (mm : MMap) (l : String) :
    l ∈ troubleCandidates mm ↔
      ((∃ p ∈ mm, p.1 = l ∧ p.2 = 0) ∨
       ((∀ p ∈ mm, p.2 ≠ 0) ∧ ∃ p ∈ mm, p.1 = l ∧ p.2 = 1)) := by
  unfold troubleCandidates
  by_cases hz : ((mm.filter (fun p => p.2 == 0)).map Prod.fst).isEmpty
  · rw [if_pos hz]
    have hzero : ∀ p ∈ mm, p.2 ≠ 0 := by
      intro p hp hp0
      rw [List.isEmpty_iff, List.map_eq_nil_iff, List.filter_eq_nil_iff] at hz
      exact absurd (by simp [hp0]) (hz p hp)
    constructor
    · intro h
      obtain ⟨p, hp, hpl⟩ := List.mem_map.mp h
      obtain ⟨hpm, hp1⟩ := List.mem_filter.mp hp
      exact Or.inr ⟨hzero, p, hpm, hpl, by simpa using hp1⟩
    · rintro (⟨p, hp, -, hp0⟩ | ⟨-, p, hp, hpl, hp1⟩)
      · exact absurd hp0 (hzero p hp)
      · exact List.mem_map.mpr ⟨p, List.mem_filter.mpr ⟨hp, by simp [hp1]⟩, hpl⟩
  · rw [if_neg hz]
    constructor
    · intro h
      obtain ⟨p, hp, hpl⟩ := List.mem_map.mp h
      obtain ⟨hpm, hp0⟩ := List.mem_filter.mp hp
      exact Or.inl ⟨p, hpm, hpl, by simpa using hp0⟩
    · rintro (⟨p, hp, hpl, hp0⟩ | ⟨hall, -⟩)
      · exact List.mem_map.mpr ⟨p, List.mem_filter.mpr ⟨hp, by simp [hp0]⟩, hpl⟩
      · exfalso
        apply hz
        rw [List.isEmpty_iff, List.map_eq_nil_iff, List.filter_eq_nil_iff]
        intro p hp
        simpa using hall p hp

/-! ## C5: trouble-letter selection -/

/-- C5 counterexample: with mastery map `{"A": 1}` and current symbol
`"C"`, the symbol `"B"` is absent from the map (implicit level 0) and
unmastered, yet `pick_trouble_letter` returns `"A"`, whose level is 1 — so
the candidate set does not treat symbols absent from the map as level-0
candidates. -/
theorem pick_trouble_ignores_absent :
    pick_trouble_letter [("A", (1 : Int))] "C" = some (some "A") ∧
    mget [("A", (1 : Int))] "A" = 1 ∧ mget [("A", (1 : Int))] "B" = 0 ∧
    "B" ∈ LETTERS := by decide

/-- Characterisation of `pick_trouble_letter` over valid inputs. -/
theorem pick_trouble_char (mm : MMap) (current : String)
    (hkeys : ∀ p ∈ mm, p.1 ∈ LETTERS) (hcur : current ∈ LETTERS) :
    (∀ l, l ∈ troubleCandidates mm ↔
      ((∃ p ∈ mm, p.1 = l ∧ p.2 = 0) ∨
       ((∀ p ∈ mm, p.2 ≠ 0) ∧ ∃ p ∈ mm, p.1 = l ∧ p.2 = 1))) ∧
    (troubleCandidates mm = [] → pick_trouble_letter mm current = some none) ∧
    (troubleCandidates mm ≠ [] →
      ∃ t, pick_trouble_letter mm current = some (some t) ∧
        t ∈ troubleCandidates mm ∧
        ∀ l ∈ troubleCandidates mm, pdist current t ≤ pdist current l) := by
  have hcand : ∀ l ∈ troubleCandidates mm, l ∈ LETTERS := by
    intro l hl
    obtain ⟨p, hp, hpl⟩ := troubleCandidates_sub mm l hl
    exact hpl ▸ hkeys p hp
  refine ⟨troubleCandidates_mem_iff mm, ?_, ?_⟩
  · intro h
    unfold pick_trouble_letter
    rw [h]
  · intro h
    cases hc : troubleCandidates mm with
    | nil => exact absurd hc h
    | cons c rest =>
      have hcL : c ∈ LETTERS := hcand c (hc ▸ List.mem_cons_self _ _)
      have hrestL : ∀ x ∈ rest, x ∈ LETTERS :=
        fun x hx => hcand x (hc ▸ List.mem_cons_of_mem _ hx)
      obtain ⟨hsome, -, -⟩ := letters_index_data current hcur
      cases hi : indexOfL current with
      | none => rw [hi] at hsome; exact absurd hsome (by simp)
      | some cidx =>
        have hcidx : letterIdx current = cidx := by simp [letterIdx, hi]
        obtain ⟨t, ht1, ht2, ht3, ht4⟩ :=
          minGo_spec cidx rest c (((letterIdx c : Int) - (cidx : Int)).natAbs)
            hrestL rfl
        refine ⟨t, ?_, ?_, ?_⟩
        · unfold pick_trouble_letter
          rw [hc]
          simp only [hi, distTo_of_mem cidx c hcL, ht1]
        · rcases ht2 with rfl | hh
          · exact List.mem_cons_self _ _
          · exact List.mem_cons_of_mem _ hh
        · intro l hl
          rcases List.mem_cons.mp hl with rfl | hl'
          · unfold pdist
            rw [hcidx]
            exact ht3
          · unfold pdist
            rw [hcidx]
            exact ht4 l hl'

/-- C5 amended: the candidate set of `pick_trouble_letter` is the set of
map keys with level exactly 0, falling back to the map keys with level
exactly 1 (symbols absent from the map are never candidates); it returns
none exactly when both sets are empty, and otherwise one of the candidates
at minimum alphabetic distance from the current symbol. -/
theorem pick_trouble_spec (mm : MMap) (current : String)
    (hkeys : ∀ p ∈ mm, p.1 ∈ LETTERS) (hcur : current ∈ LETTERS) :
    (∀ l, l ∈ troubleCandidates mm ↔
      ((∃ p ∈ mm, p.1 = l ∧ p.2 = 0) ∨
       ((∀ p ∈ mm, p.2 ≠ 0) ∧ ∃ p ∈ mm, p.1 = l ∧ p.2 = 1))) ∧
    (troubleCandidates mm = [] → pick_trouble_letter mm current = some none) ∧
    (troubleCandidates mm ≠ [] →
      ∃ t, pick_trouble_letter mm current = some (some t) ∧
        t ∈ troubleCandidates mm ∧
        ∀ l ∈ troubleCandidates mm, pdist current t ≤ pdist current l) :=
  pick_trouble_char mm current hkeys hcur

/-- Witness for the amended C5: a map with no level-0 and no level-1 keys
yields no trouble letter. -/
theorem pick_trouble_spec_witness :
    pick_trouble_letter [("A", (2 : Int))] "C" = some none :=
  (pick_trouble_spec [("A", (2 : Int))] "C" (by decide) (by decide)).2.1 (by decide)

/-! ## Lemmas about `troubleOf` and the heuristic -/

theorem troubleOf_some (mm : MMap) (letter : String)
    (hkeys : ∀ p ∈ mm, p.1 ∈ LETTERS) (hletter : letter ∈ LETTERS) :
    ∃ t, troubleOf mm letter = some t := by
  by_cases hmm : mm.isEmpty
  · exact ⟨none, by simp [troubleOf, hmm]⟩
  · by_cases hc : troubleCandidates mm = []
    · exact ⟨none, by
        simp only [troubleOf, hmm, Bool.false_eq_true, if_false]
        exact (pick_trouble_char mm letter hkeys hletter).2.1 hc⟩
    · obtain ⟨t, ht, -, -⟩ := (pick_trouble_char mm letter hkeys hletter).2.2 hc
      exact ⟨some t, by
        simp only [troubleOf, hmm, Bool.false_eq_true, if_false]
        exact ht⟩

theorem troubleOf_some_mem (mm : MMap) (letter s : String)
    (hkeys : ∀ p ∈ mm, p.1 ∈ LETTERS) (hletter : letter ∈ LETTERS)
    (h : troubleOf mm letter = some (some s)) : s ∈ LETTERS := by
  unfold troubleOf at h
  by_cases hmm : mm.isEmpty
  · rw [if_pos hmm] at h
    exact absurd h (by simp)
  · rw [if_neg hmm] at h
    by_cases hc : troubleCandidates mm = []
    · rw [(pick_trouble_char mm letter hkeys hletter).2.1 hc] at h
      exact absurd h (by simp)
    · obtain ⟨t, ht, htmem, -⟩ := (pick_trouble_char mm letter hkeys hletter).2.2 hc
      rw [ht] at h
      obtain rfl : t = s := by simpa using h
      obtain ⟨p, hp, hpl⟩ := troubleCandidates_sub mm t htmem
      exact hpl ▸ hkeys p hp

theorem recent_nonempty_of_count (recent : List String) (mm : MMap)
    (h : 1 ≤ recentUnmasteredCount recent mm) : recent.isEmpty = false := by
  cases recent with
  | nil => simp [recentUnmasteredCount, List.dedup] at h
  | cons a rest => simp

theorem heuristic_policy_some (letter : String) (ml : Int) (mm : MMap)
    (recent : List String) (hkeys : ∀ p ∈ mm, p.1 ∈ LETTERS)
    (hletter : letter ∈ LETTERS) :
    ∃ b, heuristic_policy letter ml mm recent = some b := by
  unfold heuristic_policy
  by_cases h2 : 2 ≤ ml
  · exact ⟨_, by rw [if_pos h2]⟩
  · rw [if_neg h2]
    by_cases h1 : PREFER_MOVE_ON_AT_ML ≤ ml
    · exact ⟨_, by rw [if_pos h1]⟩
    · rw [if_neg h1]
      obtain ⟨t, ht⟩ := troubleOf_some mm letter hkeys hletter
      rw [ht]
      by_cases htr : truthyNe t letter
      · refine ⟨"jump_trouble", ?_⟩
        simp [htr]
      · by_cases hrc : (!recent.isEmpty &&
          decide (MIN_RECENT_FOR_REVIEW ≤ recentUnmasteredCount recent mm)) = true
        · refine ⟨"review_recent", ?_⟩
          simp [htr, hrc]
        · refine ⟨"practice_current", ?_⟩
          simp [htr, hrc]

/-! ## C4: cold-start action selection -/

/-- C4: when the Value Table has no (or an empty) row for the state key and
the exploration branch is not taken, `epsilon_greedy` returns exactly the
cold-start heuristic's action, which follows the decision order: mastery
level ≥ 2 → move_next; level ≥ 1 → move_next; a trouble symbol distinct
from the current symbol exists → jump_trouble; at least 2 distinct
unmastered recent symbols → review_recent; otherwise practice_current. -/
theorem epsilon_greedy_cold_start (Q : Table) (skey letter : String) (ml : Int)
    (mm : MMap) (recent : List String) (randAct : String)
    (hkeys : ∀ p ∈ mm, p.1 ∈ LETTERS) (hletter : letter ∈ LETTERS)
    (hrow : lookupA Q skey = none ∨ lookupA Q skey = some []) :
    epsilon_greedy Q skey letter ml mm recent false randAct =
      heuristic_policy letter ml mm recent ∧
    (2 ≤ ml → heuristic_policy letter ml mm recent = some "move_next") ∧
    (1 ≤ ml → heuristic_policy letter ml mm recent = some "move_next") ∧
    (ml < 1 → (∃ s, troubleOf mm letter = some (some s) ∧ s ≠ letter) →
      heuristic_policy letter ml mm recent = some "jump_trouble") ∧
    (ml < 1 → (∀ s, troubleOf mm letter = some (some s) → s = letter) →
      2 ≤ recentUnmasteredCount recent mm →
      heuristic_policy letter ml mm recent = some "review_recent") ∧
    (ml < 1 → (∀ s, troubleOf mm letter = some (some s) → s = letter) →
      recentUnmasteredCount recent mm < 2 →
      heuristic_policy letter ml mm recent = some "practice_current") := by
  refine ⟨?_, ?_, ?_, ?_, ?_, ?_⟩
  · have hargmax : argmax_action Q skey = none := by
      rcases hrow with h | h <;> simp [argmax_action, h]
    unfold epsilon_greedy
    rw [hargmax]
    obtain ⟨b, hb⟩ := heuristic_policy_some letter ml mm recent hkeys hletter
    rw [hb]
    simp
  · intro h2
    unfold heuristic_policy
    rw [if_pos h2]
  · intro h1
    by_cases h2 : 2 ≤ ml
    · unfold heuristic_policy
      rw [if_pos h2]
    · unfold heuristic_policy
      rw [if_neg h2, if_pos (show PREFER_MOVE_ON_AT_ML ≤ ml from h1)]
  · intro hml ⟨s, hs, hsne⟩
    have h2 : ¬ 2 ≤ ml := by omega
    have h1 : ¬ PREFER_MOVE_ON_AT_ML ≤ ml := by unfold PREFER_MOVE_ON_AT_ML; omega
    have hsL : s ∈ LETTERS := troubleOf_some_mem mm letter s hkeys hletter hs
    unfold heuristic_policy
    rw [if_neg h2, if_neg h1, hs]
    have htr : truthyNe (some s) letter = true := by
      simp [truthyNe, hsne, letters_ne_empty_str s hsL]
    simp [htr]
  · intro hml hno hcount
    have h2 : ¬ 2 ≤ ml := by omega
    have h1 : ¬ PREFER_MOVE_ON_AT_ML ≤ ml := by unfold PREFER_MOVE_ON_AT_ML; omega
    obtain ⟨t, ht⟩ := troubleOf_some mm letter hkeys hletter
    have hne : recent.isEmpty = false :=
      recent_nonempty_of_count recent mm (by omega)
    unfold heuristic_policy
    rw [if_neg h2, if_neg h1, ht]
    have htr : truthyNe t letter = false := by
      cases t with
      | none => rfl
      | some s =>
        have := hno s ht
        subst this
        simp [truthyNe]
    have hcond : (MIN_RECENT_FOR_REVIEW ≤ recentUnmasteredCount recent mm) := by
      unfold MIN_RECENT_FOR_REVIEW
      omega
    simp [htr, hne, hcond]
  · intro hml hno hcount
    have h2 : ¬ 2 ≤ ml := by omega
    have h1 : ¬ PREFER_MOVE_ON_AT_ML ≤ ml := by unfold PREFER_MOVE_ON_AT_ML; omega
    obtain ⟨t, ht⟩ := troubleOf_some mm letter hkeys hletter
    unfold heuristic_policy
    rw [if_neg h2, if_neg h1, ht]
    have htr : truthyNe t letter = false := by
      cases t with
      | none => rfl
      | some s =>
        have := hno s ht
        subst this
        simp [truthyNe]
    have hcond : ¬ (MIN_RECENT_FOR_REVIEW ≤ recentUnmasteredCount recent mm) := by
      unfold MIN_RECENT_FOR_REVIEW
      omega
    simp [htr, hcond]

/-- Witness for C4, matching the spec's scenario: current "C" at level 0
with map {"A":0, "B":0}, empty table and no exploration yields
jump_trouble. -/
theorem epsilon_greedy_cold_start_witness :
    epsilon_greedy [] "C:0" "C" 0 [("A", (0 : Int)), ("B", (0 : Int))] [] false
      "move_next" = some "jump_trouble" := by
  have h := epsilon_greedy_cold_start [] "C:0" "C" 0
    [("A", (0 : Int)), ("B", (0 : Int))] [] "move_next"
    (by decide) (by decide) (Or.inl (by decide))
  rw [h.1]
  exact h.2.2.2.1 (by decide) ⟨"B", by decide, by decide⟩

/-! ## Lemmas about the target post-processing -/

theorem post_list_unmastered (mm : MMap) (lst0 : List String) :
    ∀ l ∈ (if lst0.isEmpty then lst0 else lst0.filter (fun x => !is_mastered x mm)),
      ¬ 2 ≤ mget mm l := by
  intro l hl
  by_cases hem : lst0.isEmpty
  · rw [if_pos hem] at hl
    rw [List.isEmpty_iff.mp hem] at hl
    simp at hl
  · rw [if_neg hem] at hl
    have := (List.mem_filter.mp hl).2
    simpa [is_mastered] using this

theorem post_process_unmastered (letter : String) (mm : MMap) (t0 : String)
    (lst0 : List String) (t1 : String) (lst1 : List String)
    (hex : ∃ l ∈ LETTERS, mget mm l < 2)
    (h : post_process letter mm t0 lst0 = some (t1, lst1)) :
    ¬ 2 ≤ mget mm t1 ∧ ∀ l ∈ lst1, ¬ 2 ≤ mget mm l := by
  unfold post_process at h
  by_cases hm : is_mastered t0 mm
  · rw [if_pos hm] at h
    cases hnl : next_letter letter mm with
    | none =>
      rw [hnl] at h
      simp at h
    | some c =>
      rw [hnl] at h
      simp only [Option.some.injEq, Prod.mk.injEq] at h
      obtain ⟨rfl, rfl⟩ := h
      refine ⟨?_, post_list_unmastered mm lst0⟩
      have h5 := (next_letter_unmastered letter mm _ hex hnl).1
      omega
  · rw [if_neg hm] at h
    simp only [Option.some.injEq, Prod.mk.injEq] at h
    obtain ⟨rfl, rfl⟩ := h
    refine ⟨?_, post_list_unmastered mm lst0⟩
    simpa [is_mastered] using hm

/-- Evaluation principle used to settle goals about the result of a
concrete `Option` computation. -/
theorem option_eval_prop {α : Type _} (P : α → Prop) (x : Option α)
    (hx : x.elim True P) : ∀ out, x = some out → P out := by
  intro out h
  rw [h] at hx
  exact hx

/-! ## C1: recommendations never target mastered symbols -/

/-- C1: whenever a Decide call returns a recommendation and at least one
symbol is unmastered, the target symbol is not mastered and no symbol of
the review list is mastered. -/
theorem api_next_target_unmastered (sys : Sys) (letter0 : String) (ml0 : Int)
    (mm : MMap) (recent : List String) (explore : Bool) (randAct : String)
    (out : DecideOut)
    (h : (api_next sys letter0 ml0 mm recent explore randAct).1 = some out)
    (hex : ∃ l ∈ LETTERS, mget mm l < 2) :
    ¬ 2 ≤ mget mm out.targetLetter ∧ ∀ l ∈ out.targetList, ¬ 2 ≤ mget mm l := by
  simp only [api_next] at h
  rw [api_next_core, Option.bind_eq_some] at h
  obtain ⟨p, -, h⟩ := h
  rw [Option.bind_eq_some] at h
  obtain ⟨action, -, h⟩ := h
  rw [Option.bind_eq_some] at h
  obtain ⟨r, -, h⟩ := h
  rw [Option.map_eq_some'] at h
  obtain ⟨q, hq, rfl⟩ := h
  exact post_process_unmastered p.1 mm r.2.1 r.2.2 q.1 q.2 hex hq

/-- Witness for C1 at a concrete Decide call. -/
theorem api_next_target_unmastered_witness :
    ¬ (2 : Int) ≤ mget [("B", (2 : Int))] "A" :=
  (api_next_target_unmastered ⟨[], none⟩ "A" 0 [("B", (2 : Int))] [] false
    "practice_current" ⟨"practice_current", "A", [], "A:0"⟩ (by decide)
    ⟨"A", by decide, by decide⟩).1

/-! ## C6: the mastered-skip pre-processing -/

/-- C6: when the caller's current symbol is mastered, the decision is keyed
on `next_letter(current)` with its mastery level re-read from the map; in
the concrete scenario Decide("Z", 2, {"Z": 2}, []) the state key is "A:0"
and the target is never "Z", for either exploration outcome and every
random action. -/
theorem api_next_mastered_skip :
    (∀ (sys : Sys) (letter0 : String) (ml0 : Int) (mm : MMap)
       (recent : List String) (explore : Bool) (randAct : String) (out : DecideOut),
       (api_next sys letter0 ml0 mm recent explore randAct).1 = some out →
       2 ≤ mget mm letter0 →
       ∃ l2, next_letter letter0 mm = some l2 ∧
         out.skey = state_key l2 (mget mm l2)) ∧
    (∀ explore : Bool, ∀ randAct ∈ ACTIONS, ∀ out : DecideOut,
       (api_next ⟨[], none⟩ "Z" 2 [("Z", (2 : Int))] [] explore randAct).1 = some out →
       out.skey = "A:0" ∧ out.targetLetter ≠ "Z") := by
  constructor
  · intro sys letter0 ml0 mm recent explore randAct out h hml
    simp only [api_next] at h
    rw [api_next_core, Option.bind_eq_some] at h
    obtain ⟨p, hpre, h⟩ := h
    rw [preStep, if_pos hml, Option.map_eq_some'] at hpre
    obtain ⟨l2, hl2, hp⟩ := hpre
    refine ⟨l2, hl2, ?_⟩
    rw [Option.bind_eq_some] at h
    obtain ⟨action, -, h⟩ := h
    rw [Option.bind_eq_some] at h
    obtain ⟨r, -, h⟩ := h
    rw [Option.map_eq_some'] at h
    obtain ⟨q, -, rfl⟩ := h
    show state_key p.1 p.2 = state_key l2 (mget mm l2)
    rw [← hp]
  · intro explore randAct hr out h
    simp only [ACTIONS, List.mem_cons, List.not_mem_nil, or_false] at hr
    rcases hr with rfl | rfl | rfl | rfl <;> cases explore <;>
      (refine option_eval_prop
        (fun o => o.skey = "A:0" ∧ o.targetLetter ≠ "Z") _ ?_ out h; decide)

/-- Witness for C6's scenario at a concrete exploration outcome. -/
theorem api_next_mastered_skip_witness :
    (DecideOut.mk "practice_current" "A" [] "A:0").skey = "A:0" ∧
    (DecideOut.mk "practice_current" "A" [] "A:0").targetLetter ≠ "Z" :=
  api_next_mastered_skip.2 false "practice_current" (by decide)
    (DecideOut.mk "practice_current" "A" [] "A:0") (by decide)

/-! ## C8: Decide never mutates or persists the table -/

/-- C8: a Decide call leaves the in-memory table exactly as loaded and
never writes the store: the final table equals the loaded one and the
backing store is untouched (only `api_feedback` runs the update rule and
persists). -/
theorem api_next_no_mutation (sys : Sys) (letter0 : String) (ml0 : Int)
    (mm : MMap) (recent : List String) (explore : Bool) (randAct : String) :
    (api_next sys letter0 ml0 mm recent explore randAct).2.q = (load_q sys).q ∧
    (api_next sys letter0 ml0 mm recent explore randAct).2.store = sys.store := by
  constructor
  · rfl
  · rfl

/-! ## C9: action keys of the persisted table -/

theorem actionKeysOK_iff (Q : Table) :
    actionKeysOK Q = true ↔ ∀ p ∈ Q, ∀ c ∈ p.2, c.1 ∈ ACTIONS := by
  simp [actionKeysOK, List.all_eq_true]

theorem actionKeysOK_update (Q : Table) (s a : String) (r : ℚ) (s2 : String)
    (hQ : actionKeysOK Q = true) (ha : a ∈ ACTIONS) :
    actionKeysOK (update_q Q s a r s2) = true := by
  rw [actionKeysOK_iff] at hQ ⊢
  intro p hp c hc
  simp only [update_q] at hp
  rcases mem_setA _ _ _ _ hp with hp1 | rfl
  · rcases mem_ensureRow _ _ _ hp1 with hp2 | rfl
    · rcases mem_ensureRow _ _ _ hp2 with hp3 | rfl
      · exact hQ p hp3 c hc
      · simp at hc
    · simp at hc
  · rcases mem_setA _ _ _ _ hc with hc1 | rfl
    · cases hl : lookupA (ensureRow (ensureRow Q s) s2) s with
      | none => rw [rowOf, hl] at hc1; simp at hc1
      | some row =>
        rw [rowOf, hl] at hc1
        simp only [Option.getD_some] at hc1
        have hmem := lookupA_mem _ _ _ hl
        rcases mem_ensureRow _ _ _ hmem with hm2 | hrow
        · rcases mem_ensureRow _ _ _ hm2 with hm3 | hrow
          · exact hQ _ hm3 c hc1
          · obtain ⟨-, rfl⟩ := Prod.mk.injEq .. ▸ hrow
            simp at hc1
        · obtain ⟨-, rfl⟩ := Prod.mk.injEq .. ▸ hrow
          simp at hc1
    · exact ha

theorem api_feedback_inv (sys : Sys) (op : FbOp)
    (h1 : actionKeysOK sys.q = true)
    (h2 : sys.store = none ∨ sys.store = some sys.q)
    (ha : op.action ∈ ACTIONS) :
    actionKeysOK (api_feedback sys op).q = true ∧
    ((api_feedback sys op).store = none ∨
     (api_feedback sys op).store = some (api_feedback sys op).q) := by
  have hload : (load_q sys).q = sys.q := by
    rcases h2 with h | h <;> simp [load_q, h]
  constructor
  · show actionKeysOK (update_q (load_q sys).q op.skey op.action op.reward
      (state_key op.nletter op.nml)) = true
    rw [hload]
    exact actionKeysOK_update _ _ _ _ _ h1 ha
  · exact Or.inr rfl

theorem runFeedbacks_inv (ops : List FbOp) :
    ∀ sys : Sys, actionKeysOK sys.q = true →
      (sys.store = none ∨ sys.store = some sys.q) →
      (∀ op ∈ ops, op.action ∈ ACTIONS) →
      actionKeysOK (runFeedbacks sys ops).q = true := by
  induction ops with
  | nil => intro sys h1 _ _; exact h1
  | cons op rest ih =>
    intro sys h1 h2 h3
    show actionKeysOK (runFeedbacks (api_feedback sys op) rest).q = true
    obtain ⟨g1, g2⟩ := api_feedback_inv sys op h1 h2 (h3 op (List.mem_cons_self _ _))
    exact ih _ g1 g2 (fun o ho => h3 o (List.mem_cons_of_mem _ ho))

/-- C9 counterexample: `api_feedback` does not validate the action string,
so a single Feedback call with action "banana" (not one of the 4 fixed
tags) stores it as an action key of the persisted table. -/
theorem feedback_action_unvalidated :
    actionKeysOK (runFeedbacks ⟨[], none⟩ [⟨"C:0", "banana", 1, "C", 1⟩]).q = false ∧
    (rowOf (runFeedbacks ⟨[], none⟩ [⟨"C:0", "banana", 1, "C", 1⟩]).q "C:0").map
      Prod.fst = ["banana"] ∧ "banana" ∉ ACTIONS := by decide

/-- C9 amended: provided every Feedback call in the sequence supplies an
action among the 4 fixed tags (which the code itself does not enforce),
every action key in any row of the table after any sequence of Feedback
calls starting from the empty table is one of the 4 fixed tags. -/
theorem feedback_table_actions_closed (ops : List FbOp)
    (h : ∀ op ∈ ops, op.action ∈ ACTIONS) :
    actionKeysOK (runFeedbacks ⟨[], none⟩ ops).q = true :=
  runFeedbacks_inv ops ⟨[], none⟩ (by decide) (Or.inl rfl) h

/-- Witness for the amended C9 at a concrete feedback sequence. -/
theorem feedback_table_actions_closed_witness :
    actionKeysOK
      (runFeedbacks ⟨[], none⟩ [⟨"C:0", "practice_current", 1, "C", 1⟩]).q = true :=
  feedback_table_actions_closed [⟨"C:0", "practice_current", 1, "C", 1⟩] (by decide)

/-! ## C10: unknown symbols are not rejected -/

/-- C10 (code bug): a Decide call whose current symbol "7" lies outside the
26-symbol alphabet is not rejected — with an empty mastery map and empty
history the greedy path returns a full recommendation whose target is the
invalid symbol itself. -/
theorem api_next_accepts_unknown_symbol :
    (api_next ⟨[], none⟩ "7" 0 [] [] false "practice_current").1 =
      some ⟨"practice_current", "7", [], "7:0"⟩ ∧ "7" ∉ LETTERS := by decide
